import Mathlib

/-!
Verification of the rttui ping measurement and history engine.

The definitions below are a shallow embedding of the Rust sources:
  * `src/ping/udp.rs`   — wire codec, UDP client pending table, echo server
  * `src/ping/mod.rs`   — probe result model and statistics aggregator
  * `src/ui/app.rs`     — bounded history store and row geometry
  * `src/ui/graph.rs`   — viewport addressing

Machine integers are modelled as `Nat`; byte strings as `List Nat`;
`std::time::Duration` / `Instant` values as `Nat` (a fixed time unit);
explicit narrowing casts in the source are modelled with `% 2 ^ w`.
-/

namespace Rttui

/-! ### Wire codec (src/ping/udp.rs, lines 10-35) -/

/-- Magic bytes for UDP ping packets: the ASCII string `PING`. -/
def MAGIC : List Nat := [0x50, 0x49, 0x4E, 0x47]

/-- Big-endian byte encoding of `n` on `w` bytes, as done by
`u64::to_be_bytes` (for `w = 8` it encodes `n % 2^64`). -/
def toBeBytes : Nat → Nat → List Nat
  | 0, _ => []
  | w + 1, n => toBeBytes w (n / 256) ++ [n % 256]

/-- Big-endian byte decoding, as done by `u64::from_be_bytes`. -/
def fromBeBytes (l : List Nat) : Nat :=
  l.foldl (fun acc b => acc * 256 + b) 0

/-- Embedding of `encode_packet` (udp.rs lines 17-23): 4 magic bytes,
8 bytes big-endian sequence, 8 bytes big-endian timestamp. -/
def encode_packet (seq timestamp_us : Nat) : List Nat :=
  MAGIC ++ toBeBytes 8 seq ++ toBeBytes 8 timestamp_us

/-- Embedding of `decode_packet` (udp.rs lines 25-35). -/
def decode_packet (buf : List Nat) : Option (Nat × Nat) :=
  if buf.length < 20 then none
  else if buf.take 4 ≠ MAGIC then none
  else some (fromBeBytes ((buf.drop 4).take 8), fromBeBytes ((buf.drop 12).take 8))

theorem toBeBytes_length (w n : Nat) : (toBeBytes w n).length = w := by
  induction w generalizing n with
  | zero => rfl
  | succ w ih => simp [toBeBytes, ih]

theorem fromBeBytes_toBeBytes (w n : Nat) :
    fromBeBytes (toBeBytes w n) = n % 256 ^ w := by
  induction w generalizing n with
  | zero => simp [toBeBytes, fromBeBytes, Nat.mod_one]
  | succ w ih =>
    have h : fromBeBytes (toBeBytes w (n / 256) ++ [n % 256]) =
        fromBeBytes (toBeBytes w (n / 256)) * 256 + n % 256 := by
      simp [fromBeBytes, List.foldl_append]
    have hmul : n % (256 * 256 ^ w) = n % 256 + 256 * (n / 256 % 256 ^ w) :=
      Nat.mod_mul
    simp only [toBeBytes, h, ih, pow_succ]
    calc n / 256 % 256 ^ w * 256 + n % 256
        = n % 256 + 256 * (n / 256 % 256 ^ w) := by ring
      _ = n % (256 * 256 ^ w) := hmul.symm
      _ = n % (256 ^ w * 256) := by rw [Nat.mul_comm]

theorem encode_packet_length (seq ts : Nat) : (encode_packet seq ts).length = 20 := by
  simp [encode_packet, toBeBytes_length, MAGIC]

/-- C1. Round-trip: for all `seq ts : u64`, decoding the 20-byte packet
produced by `encode_packet seq ts` returns exactly `some (seq, ts)`. -/
theorem decode_encode_roundtrip (seq ts : Nat)
    (hseq : seq < 2 ^ 64) (hts : ts < 2 ^ 64) :
    decode_packet (encode_packet seq ts) = some (seq, ts) := by
  have hlen : (encode_packet seq ts).length = 20 := encode_packet_length seq ts
  have hmagic4 : (MAGIC : List Nat).length = 4 := rfl
  have hseqlen : (toBeBytes 8 seq).length = 8 := toBeBytes_length 8 seq
  have htake4 : (encode_packet seq ts).take 4 = MAGIC := by
    rw [encode_packet, List.append_assoc]
    exact List.take_left' hmagic4
  have hdrop4 : (encode_packet seq ts).drop 4 = toBeBytes 8 seq ++ toBeBytes 8 ts := by
    rw [encode_packet, List.append_assoc]
    exact List.drop_left' hmagic4
  have hdrop12 : (encode_packet seq ts).drop 12 = toBeBytes 8 ts := by
    have h12 : (MAGIC ++ toBeBytes 8 seq).length = 12 := by
      simp [MAGIC, toBeBytes_length]
    rw [encode_packet]
    exact List.drop_left' h12
  have hpow : (256 : Nat) ^ 8 = 2 ^ 64 := by norm_num
  rw [decode_packet, if_neg (by omega), hdrop4, hdrop12]
  rw [if_neg (by simp [htake4])]
  rw [List.take_left' hseqlen]
  rw [List.take_of_length_le (le_of_eq (toBeBytes_length 8 ts))]
  rw [fromBeBytes_toBeBytes, fromBeBytes_toBeBytes, hpow,
    Nat.mod_eq_of_lt hseq, Nat.mod_eq_of_lt hts]

/-- C1 witness: the round-trip at the concrete input used by the
repository's own unit test (`seq = 12345`, `ts = 9876543210`). -/
theorem decode_encode_roundtrip_witness :
    decode_packet (encode_packet 12345 9876543210) = some (12345, 9876543210) :=
  decode_encode_roundtrip 12345 9876543210 (by norm_num) (by norm_num)

/-- C2. Rejection: `decode_packet` returns `none` on every buffer shorter
than 20 bytes and on every buffer whose first 4 bytes are not the magic;
no such input produces anything other than the silent `none`. -/
theorem decode_packet_rejects (buf : List Nat)
    (h : buf.length < 20 ∨ buf.take 4 ≠ MAGIC) :
    decode_packet buf = none := by
  rw [decode_packet]
  rcases h with h | h
  · rw [if_pos h]
  · by_cases hlen : buf.length < 20
    · rw [if_pos hlen]
    · rw [if_neg hlen, if_pos h]

/-- C2 witness: rejection at the two concrete inputs of the repository's
unit test — a 10-byte buffer, and a 24-byte buffer with magic `NOPE`. -/
theorem decode_packet_rejects_witness :
    decode_packet (List.replicate 10 0) = none ∧
    decode_packet [0x4E, 0x4F, 0x50, 0x45, 0x31, 0x32, 0x33, 0x34, 0x35, 0x36,
      0x37, 0x38, 0x39, 0x30, 0x31, 0x32, 0x33, 0x34, 0x35, 0x36, 0x37, 0x38,
      0x39, 0x30] = none :=
  ⟨decode_packet_rejects _ (Or.inl (by decide)),
   decode_packet_rejects _ (Or.inr (by decide))⟩

/-- C10. Over-length buffers: whenever the buffer has at least 20 bytes and
carries the magic, `decode_packet` succeeds, decodes sequence and timestamp
from bytes 4..20, and ignores all trailing bytes — the result is the same
as for the 20-byte prefix alone. -/
theorem decode_packet_ignores_trailing (buf : List Nat)
    (hlen : 20 ≤ buf.length) (hmagic : buf.take 4 = MAGIC) :
    decode_packet buf =
      some (fromBeBytes ((buf.drop 4).take 8), fromBeBytes ((buf.drop 12).take 8)) ∧
    decode_packet buf = decode_packet (buf.take 20) := by
  have hbuf : decode_packet buf =
      some (fromBeBytes ((buf.drop 4).take 8), fromBeBytes ((buf.drop 12).take 8)) := by
    rw [decode_packet, if_neg (by omega), if_neg (by simp [hmagic])]
  refine ⟨hbuf, ?_⟩
  have hlen20 : (buf.take 20).length = 20 := by simp [List.length_take]; omega
  have htake4 : (buf.take 20).take 4 = buf.take 4 := by
    rw [List.take_take]; norm_num
  have hdrop4 : ((buf.take 20).drop 4).take 8 = (buf.drop 4).take 8 := by
    rw [List.drop_take, List.take_take]; norm_num
  have hdrop12 : ((buf.take 20).drop 12).take 8 = (buf.drop 12).take 8 := by
    rw [List.drop_take, List.take_take]; norm_num
  rw [hbuf, decode_packet, if_neg (by omega), if_neg (by simp [htake4, hmagic]),
    hdrop4, hdrop12]

/-- C10 witness: a 24-byte buffer (valid 20-byte packet plus 4 trailing
bytes) decodes exactly like its 20-byte prefix. -/
theorem decode_packet_ignores_trailing_witness :
    decode_packet (encode_packet 7 9 ++ [1, 2, 3, 4]) =
      some (fromBeBytes (((encode_packet 7 9 ++ [1, 2, 3, 4]).drop 4).take 8),
            fromBeBytes (((encode_packet 7 9 ++ [1, 2, 3, 4]).drop 12).take 8)) ∧
    decode_packet (encode_packet 7 9 ++ [1, 2, 3, 4]) =
      decode_packet ((encode_packet 7 9 ++ [1, 2, 3, 4]).take 20) :=
  decode_packet_ignores_trailing (encode_packet 7 9 ++ [1, 2, 3, 4])
    (by decide) (by decide)

/-! ### Probe result model (src/ping/mod.rs, lines 26-87) -/

/-- Embedding of `PingResult` (mod.rs lines 26-42); durations and instants
are `Nat` in a fixed time unit, timestamps are opaque `Nat` values. -/
structure PingResult where
  seq : Nat
  rtt : Option Nat
  sent_at : Nat
  received_at : Option Nat
  timestamp : Nat
  jitter : Option Nat
deriving DecidableEq, Repr

/-- Embedding of `Duration::abs_diff`: `|a - b|` on `Nat`. -/
def abs_diff (a b : Nat) : Nat := if b ≤ a then a - b else b - a

/-- Embedding of `PingResult::success` (mod.rs lines 45-55); the two
clock readings taken inside the constructor (`Instant::now()` for
`received_at` and `Local::now()` for `timestamp`) are passed as the
parameters `now` and `ts`. -/
def PingResult.success (seq rtt sent_at : Nat) (prev_rtt : Option Nat)
    (now ts : Nat) : PingResult :=
  { seq := seq, rtt := some rtt, sent_at := sent_at, received_at := some now,
    timestamp := ts, jitter := prev_rtt.map fun prev => abs_diff rtt prev }

/-- Embedding of `PingResult::timeout` (mod.rs lines 57-66). -/
def PingResult.timeout (seq sent_at ts : Nat) : PingResult :=
  { seq := seq, rtt := none, sent_at := sent_at, received_at := none,
    timestamp := ts, jitter := none }

/-! ### Statistics aggregator (src/ping/mod.rs, lines 98-148) -/

/-- Embedding of `PingStats` (mod.rs lines 99-106). -/
structure PingStats where
  total_sent : Nat
  total_received : Nat
  total_lost : Nat
  min_rtt : Option Nat
  max_rtt : Option Nat
  sum_rtt : Nat
deriving DecidableEq, Repr

/-- Embedding of `PingStats::new` / `Default`. -/
def PingStats.new : PingStats :=
  { total_sent := 0, total_received := 0, total_lost := 0,
    min_rtt := none, max_rtt := none, sum_rtt := 0 }

/-- Embedding of `PingStats::record` (mod.rs lines 113-132). -/
def PingStats.record (s : PingStats) (result : PingResult) : PingStats :=
  let s1 := { s with total_sent := s.total_sent + 1 }
  match result.rtt with
  | some rtt =>
      { s1 with
        total_received := s1.total_received + 1
        sum_rtt := s1.sum_rtt + rtt
        min_rtt := some (match s1.min_rtt with | some m => min m rtt | none => rtt)
        max_rtt := some (match s1.max_rtt with | some m => max m rtt | none => rtt) }
  | none => { s1 with total_lost := s1.total_lost + 1 }

/-- Embedding of `PingStats::avg_rtt` (mod.rs lines 134-140). The source
divides `sum_rtt` by `self.total_received as u32`; the narrowing cast is
modelled by `% 2 ^ 32`. -/
def PingStats.avg_rtt (s : PingStats) : Option Nat :=
  if 0 < s.total_received then some (s.sum_rtt / (s.total_received % 2 ^ 32))
  else none

/-- Embedding of `PingStats::loss_percent` (mod.rs lines 142-148); the
`f64` arithmetic of the source is idealised as exact rational arithmetic. -/
def PingStats.loss_percent (s : PingStats) : ℚ :=
  if 0 < s.total_sent then (s.total_lost : ℚ) / (s.total_sent : ℚ) * 100
  else 0

/-- RTTs of the successful results of a run, in recording order. -/
def successes (rs : List PingResult) : List Nat :=
  rs.filterMap fun r => r.rtt

/-- The timed-out results of a run, in recording order. -/
def timeouts (rs : List PingResult) : List PingResult :=
  rs.filter fun r => r.rtt.isNone

/-- Folding `min` over a list starting from an optional current minimum,
exactly as the aggregator's `min_rtt` update does. -/
def optFoldMin (o : Option Nat) (l : List Nat) : Option Nat :=
  l.foldl (fun acc r => some (match acc with | some m => min m r | none => r)) o

/-- Folding `max` over a list starting from an optional current maximum. -/
def optFoldMax (o : Option Nat) (l : List Nat) : Option Nat :=
  l.foldl (fun acc r => some (match acc with | some m => max m r | none => r)) o

/-- The aggregator state after recording a whole run, starting from a
fresh `PingStats::new`. -/
def statsOf (rs : List PingResult) : PingStats :=
  rs.foldl PingStats.record PingStats.new

theorem successes_length_add_timeouts_length (rs : List PingResult) :
    (successes rs).length + (timeouts rs).length = rs.length := by
  induction rs with
  | nil => rfl
  | cons r rs ih =>
    simp only [successes, timeouts] at ih ⊢
    cases hr : r.rtt <;>
      simp [List.filterMap_cons, List.filter_cons, hr] <;> omega

theorem record_foldl (s : PingStats) (rs : List PingResult) :
    rs.foldl PingStats.record s =
      { total_sent := s.total_sent + rs.length,
        total_received := s.total_received + (successes rs).length,
        total_lost := s.total_lost + (timeouts rs).length,
        min_rtt := optFoldMin s.min_rtt (successes rs),
        max_rtt := optFoldMax s.max_rtt (successes rs),
        sum_rtt := s.sum_rtt + (successes rs).sum } := by
  induction rs generalizing s with
  | nil => simp [successes, timeouts, optFoldMin, optFoldMax]
  | cons r rs ih =>
    rw [List.foldl_cons, ih]
    cases hr : r.rtt with
    | none =>
      simp only [PingStats.record, hr, successes, timeouts, List.filterMap_cons,
        List.filter_cons, List.length_cons, Option.isNone_none]
      simp [successes, timeouts, Nat.add_assoc, Nat.add_comm, Nat.add_left_comm]
    | some v =>
      simp only [PingStats.record, hr, successes, timeouts, List.filterMap_cons,
        List.filter_cons, List.length_cons, Option.isNone_some]
      simp [successes, timeouts, optFoldMin, optFoldMax, List.sum_cons,
        Nat.add_assoc, Nat.add_comm, Nat.add_left_comm]

theorem optFoldMin_some (l : List Nat) (m : Nat) :
    optFoldMin (some m) l = some (l.foldl min m) := by
  induction l generalizing m with
  | nil => rfl
  | cons a l ih => simpa [optFoldMin, List.foldl_cons] using ih (min m a)

theorem optFoldMax_some (l : List Nat) (m : Nat) :
    optFoldMax (some m) l = some (l.foldl max m) := by
  induction l generalizing m with
  | nil => rfl
  | cons a l ih => simpa [optFoldMax, List.foldl_cons] using ih (max m a)

theorem optFoldMin_none (l : List Nat) : optFoldMin none l = l.min? := by
  cases l with
  | nil => rfl
  | cons a l => rw [show optFoldMin none (a :: l) = optFoldMin (some a) l from rfl,
      optFoldMin_some]; rfl

theorem optFoldMax_none (l : List Nat) : optFoldMax none l = l.max? := by
  cases l with
  | nil => rfl
  | cons a l => rw [show optFoldMax none (a :: l) = optFoldMax (some a) l from rfl,
      optFoldMax_some]; rfl

/-- C3 (amended). After recording any interleaving `rs` of N successes and
M timeouts: `totalSent = N + M`, `totalReceived = N`, `totalLost = M`,
`minRtt`/`maxRtt` are the minimum/maximum of the successful RTTs (absent
when N = 0), `averageRtt` is absent when N = 0 and equals
`(r1 + .. + rN) / N` when `0 < N < 2^32` (the source divides by
`total_received as u32`, so the divisor is N truncated to 32 bits), and
`lossPercent = M / (N + M) * 100`, defined as 0 when N + M = 0. -/
theorem statsOf_spec (rs : List PingResult) :
    (statsOf rs).total_sent = (successes rs).length + (timeouts rs).length ∧
    (statsOf rs).total_received = (successes rs).length ∧
    (statsOf rs).total_lost = (timeouts rs).length ∧
    (statsOf rs).min_rtt = (successes rs).min? ∧
    (statsOf rs).max_rtt = (successes rs).max? ∧
    ((successes rs).length = 0 → (statsOf rs).avg_rtt = none) ∧
    (0 < (successes rs).length → (successes rs).length < 2 ^ 32 →
      (statsOf rs).avg_rtt = some ((successes rs).sum / (successes rs).length)) ∧
    (statsOf rs).loss_percent =
      (if 0 < (successes rs).length + (timeouts rs).length
       then ((timeouts rs).length : ℚ) /
          (((successes rs).length : ℚ) + ((timeouts rs).length : ℚ)) * 100
       else 0) := by
  have hchar := record_foldl PingStats.new rs
  have hlen := successes_length_add_timeouts_length rs
  rw [statsOf, hchar]
  simp only [PingStats.new, PingStats.avg_rtt, PingStats.loss_percent,
    Nat.zero_add, optFoldMin_none, optFoldMax_none]
  refine ⟨by omega, by trivial, by trivial, by trivial, by trivial, ?_, ?_, ?_⟩
  · intro h0; rw [if_neg (by omega)]
  · intro h0 hlt
    rw [if_pos h0, Nat.mod_eq_of_lt hlt]
  · by_cases h : 0 < (successes rs).length + (timeouts rs).length
    · rw [if_pos (by omega), if_pos h]
      have : ((rs.length : ℚ)) =
          ((successes rs).length : ℚ) + ((timeouts rs).length : ℚ) := by
        rw [← hlen]; push_cast; ring
      rw [this]
    · rw [if_neg (by omega), if_neg h]

/-- C3 witness: the statistics characterisation applied to the concrete
end-to-end run of the spec (successes 50, 60, 210, then one timeout),
discharging the hypotheses of the average-RTT conjunct there. -/
theorem statsOf_spec_witness :
    (statsOf [PingResult.success 1 50 0 none 0 0,
              PingResult.success 2 60 0 (some 50) 0 0,
              PingResult.success 3 210 0 (some 60) 0 0,
              PingResult.timeout 4 0 0]).avg_rtt = some 106 ∧
    (statsOf [PingResult.success 1 50 0 none 0 0,
              PingResult.success 2 60 0 (some 50) 0 0,
              PingResult.success 3 210 0 (some 60) 0 0,
              PingResult.timeout 4 0 0]).total_sent = 4 := by
  have h := statsOf_spec [PingResult.success 1 50 0 none 0 0,
    PingResult.success 2 60 0 (some 50) 0 0,
    PingResult.success 3 210 0 (some 60) 0 0,
    PingResult.timeout 4 0 0]
  refine ⟨?_, ?_⟩
  · have havg := h.2.2.2.2.2.2.1 (by decide) (by decide)
    rw [havg]; decide
  · rw [h.1]; decide

/-- A run of `2^32 + 1` successful probes, each with RTT 1: the smallest
run on which the `as u32` truncation in `avg_rtt` gives a wrong average. -/
def hugeRun : List PingResult :=
  List.replicate (2 ^ 32 + 1) (PingResult.success 1 1 0 none 0 0)

theorem successes_hugeRun : successes hugeRun = List.replicate (2 ^ 32 + 1) 1 := by
  rw [hugeRun, successes, List.filterMap_replicate]; rfl

/-- Raw form of the aggregator's average: the divisor carries the `as u32`
truncation of the source. -/
theorem statsOf_avg_raw (rs : List PingResult) (h : 0 < (successes rs).length) :
    (statsOf rs).avg_rtt =
      some ((successes rs).sum / ((successes rs).length % 2 ^ 32)) := by
  rw [statsOf, record_foldl]
  simp only [PingStats.new, PingStats.avg_rtt, Nat.zero_add]
  rw [if_pos h]

/-- C3 counterexample: the claim as stated — `averageRtt = sumRtt / N`
whenever `N > 0` — fails on the code. With `N = 2^32 + 1` successes of
RTT 1, `total_received as u32 = 1`, so the code returns `averageRtt =
sumRtt = 2^32 + 1` instead of the claimed `sumRtt / N = 1`. -/
theorem statsOf_avg_counterexample :
    0 < (successes hugeRun).length ∧
    (statsOf hugeRun).avg_rtt ≠
      some ((successes hugeRun).sum / (successes hugeRun).length) := by
  have hlen : (successes hugeRun).length = 2 ^ 32 + 1 := by
    rw [successes_hugeRun, List.length_replicate]
  have hsum : (successes hugeRun).sum = 2 ^ 32 + 1 := by
    rw [successes_hugeRun, List.sum_replicate, smul_eq_mul, Nat.mul_one]
  have hpos : 0 < (successes hugeRun).length := by rw [hlen]; norm_num
  refine ⟨hpos, ?_⟩
  rw [statsOf_avg_raw hugeRun hpos, hlen, hsum]
  have hmod : (2 ^ 32 + 1) % 2 ^ 32 = 1 := by norm_num
  have hdiv : (2 ^ 32 + 1) / (2 ^ 32 + 1) = 1 := Nat.div_self (by norm_num)
  rw [hmod, hdiv, Nat.div_one]
  intro hcontra
  have h1 := Option.some.inj hcontra
  norm_num at h1

/-! ### The previous-RTT jitter slot (src/ping/udp.rs lines 90-109 and
144-148): the receiver loop reads the shared slot, overwrites it with the
new RTT, and emits a success carrying the old value; the timeout sweep
clears the slot and emits a timeout. -/

/-- Outcome of one probe as seen by the shared jitter slot. -/
inductive ProbeOutcome where
  | reply (rtt : Nat)
  | expire
deriving DecidableEq, Repr

/-- Run of the jitter-slot protocol: given the current `prev_rtt` slot
value, produce the emitted results of a sequence of probe outcomes
(sequence numbers, instants and timestamps are irrelevant to jitter and
fixed to 0). -/
def runProbes : Option Nat → List ProbeOutcome → List PingResult
  | _, [] => []
  | slot, ProbeOutcome.reply rtt :: rest =>
      PingResult.success 0 rtt 0 slot 0 0 :: runProbes (some rtt) rest
  | _, ProbeOutcome.expire :: rest =>
      PingResult.timeout 0 0 0 :: runProbes none rest

/-- C7. Jitter semantics: `success` computes the jitter as the absolute
difference from the supplied previous RTT and leaves it absent otherwise;
`timeout` has RTT, receive instant and jitter all absent; in a run 100ms
then 130ms the second jitter is 30ms; a timeout between two successes
clears the slot, so the following success has absent jitter. -/
theorem jitter_spec :
    (∀ seq rtt sent_at p now ts,
      (PingResult.success seq rtt sent_at (some p) now ts).jitter =
        some (((rtt : ℤ) - (p : ℤ)).natAbs)) ∧
    (∀ seq rtt sent_at now ts,
      (PingResult.success seq rtt sent_at none now ts).jitter = none) ∧
    (∀ seq sent_at ts,
      (PingResult.timeout seq sent_at ts).rtt = none ∧
      (PingResult.timeout seq sent_at ts).received_at = none ∧
      (PingResult.timeout seq sent_at ts).jitter = none) ∧
    (runProbes none [ProbeOutcome.reply 100, ProbeOutcome.reply 130]).map
        PingResult.jitter = [none, some 30] ∧
    (runProbes none [ProbeOutcome.reply 100, ProbeOutcome.expire,
        ProbeOutcome.reply 130]).map PingResult.jitter = [none, none, none] := by
  refine ⟨?_, ?_, ?_, ?_, ?_⟩
  · intro seq rtt sent_at p now ts
    have habs : ((rtt : ℤ) - (p : ℤ)).natAbs = abs_diff rtt p := by
      unfold abs_diff; split <;> omega
    simp [PingResult.success, habs]
  · intro seq rtt sent_at now ts; rfl
  · intro seq sent_at ts; exact ⟨rfl, rfl, rfl⟩
  · rfl
  · rfl

/-! ### Bounded history store (src/ui/app.rs, lines 85-289) -/

/-- Embedding of Rust's `usize::div_ceil`: quotient, plus one when there
is a remainder. -/
def div_ceil (a b : Nat) : Nat :=
  let d := a / b
  let r := a % b
  if 0 < r then d + 1 else d

theorem div_ceil_eq_ceilDiv (a b : Nat) (hb : 0 < b) : div_ceil a b = a ⌈/⌉ b := by
  rw [Nat.ceilDiv_eq_add_pred_div]
  have hdm := Nat.div_add_mod a b
  have hlt : a % b < b := Nat.mod_lt a hb
  simp only [div_ceil]
  rcases Nat.eq_zero_or_pos (a % b) with h | h
  · have heq : a + b - 1 = b * (a / b) + (b - 1) := by omega
    rw [if_neg (by omega), heq, Nat.mul_add_div hb,
      Nat.div_eq_of_lt (show b - 1 < b by omega), Nat.add_zero]
  · have hdist : b * (a / b + 1) = b * (a / b) + b := by ring
    have heq : a + b - 1 = b * (a / b + 1) + (a % b - 1) := by omega
    rw [if_pos h, heq, Nat.mul_add_div hb,
      Nat.div_eq_of_lt (show a % b - 1 < b by omega), Nat.add_zero]

/-- Capacity of the footer sparkline history (app.rs line 7). -/
def MAX_RECENT_RTT_COUNT : Nat := 500

/-- Embedding of the history-relevant state of `App` (app.rs lines 85-182;
the presentation-only fields are omitted). `results` is the `VecDeque`
with its front at the head of the list. -/
structure App where
  stats : PingStats
  results : List PingResult
  max_history : Nat
  result_base_seq : Nat
  recent_rtts : List (Option Nat)
deriving Repr

/-- Embedding of the `while len > max { pop_front }` loops of
`record_result`: pops from the front until the length is at most
`maxLen`, returning the remaining list and the number of pops. -/
def popFrontWhileLonger : List α → Nat → List α × Nat
  | [], _ => ([], 0)
  | a :: l, maxLen =>
    if maxLen < (a :: l).length then
      let r := popFrontWhileLonger l maxLen
      (r.1, r.2 + 1)
    else (a :: l, 0)

/-- Embedding of `App::record_result` (app.rs lines 247-264): update the
statistics, push the RTT onto the sparkline history (bounded by
`MAX_RECENT_RTT_COUNT`), push the result onto the ring, and evict from
the front — incrementing `result_base_seq` once per eviction — until at
most `max_history` entries remain. -/
def App.record_result (a : App) (result : PingResult) : App :=
  let stats := a.stats.record result
  let rtt_ms := result.rtt
  let recent := popFrontWhileLonger (a.recent_rtts ++ [rtt_ms]) MAX_RECENT_RTT_COUNT
  let res := popFrontWhileLonger (a.results ++ [result]) a.max_history
  { a with
    stats := stats
    recent_rtts := recent.1
    results := res.1
    result_base_seq := a.result_base_seq + res.2 }

/-- Embedding of `App::total_rows` (app.rs lines 282-289). -/
def App.total_rows (a : App) (width : Nat) : Nat :=
  if width = 0 ∨ a.results.isEmpty then 0
  else div_ceil (a.result_base_seq + a.results.length) width

/-- The history-relevant state of a fresh `App` (app.rs lines 194-245)
with capacity `max_history` (derived from the configured memory budget;
configuration validation makes it at least 1). -/
def App.init (max_history : Nat) : App :=
  { stats := PingStats.new, results := [], max_history := max_history,
    result_base_seq := 0, recent_rtts := [] }

/-- The history store after recording a whole run into a fresh `App`. -/
def recordAll (k : Nat) (rs : List PingResult) : App :=
  rs.foldl App.record_result (App.init k)

theorem popFrontWhileLonger_eq (l : List α) (m : Nat) :
    popFrontWhileLonger l m = (l.drop (l.length - m), l.length - m) := by
  induction l with
  | nil => simp [popFrontWhileLonger]
  | cons a l ih =>
    simp only [popFrontWhileLonger]
    by_cases h : m < (a :: l).length
    · rw [if_pos h, ih]
      have h1 : (a :: l).length - m = (l.length - m) + 1 := by
        simp only [List.length_cons] at h ⊢; omega
      rw [h1, List.drop_succ_cons]
    · rw [if_neg h]
      have h1 : (a :: l).length - m = 0 := by
        simp only [List.length_cons] at h ⊢; omega
      rw [h1, List.drop_zero]

/-- State of the history after recording any run: the ring holds the last
`min n k` results, and `result_base_seq` counts the `n - k` evictions. -/
theorem recordAll_char (k : Nat) (rs : List PingResult) :
    (recordAll k rs).results = rs.drop (rs.length - k) ∧
    (recordAll k rs).result_base_seq = rs.length - k ∧
    (recordAll k rs).max_history = k := by
  induction rs using List.reverseRecOn with
  | nil => exact ⟨by simp [recordAll, App.init], by simp [recordAll, App.init], rfl⟩
  | append_singleton rs r ih =>
    obtain ⟨hres, hbase, hmax⟩ := ih
    have hfold : recordAll k (rs ++ [r]) = (recordAll k rs).record_result r := by
      rw [recordAll, recordAll, List.foldl_append, List.foldl_cons, List.foldl_nil]
    have happ : rs.drop (rs.length - k) ++ [r] = (rs ++ [r]).drop (rs.length - k) := by
      rw [List.drop_append_eq_append_drop]
      have h0 : rs.length - k - rs.length = 0 := by omega
      rw [h0, List.drop_zero]
    refine ⟨?_, ?_, ?_⟩
    · rw [hfold]
      simp only [App.record_result, popFrontWhileLonger_eq, hres, hmax]
      rw [happ, List.drop_drop]
      congr 1
      simp only [List.length_append, List.length_drop, List.length_cons,
        List.length_nil]
      omega
    · rw [hfold]
      simp only [App.record_result, popFrontWhileLonger_eq, hres, hbase, hmax]
      simp only [List.length_append, List.length_drop, List.length_cons,
        List.length_nil]
      omega
    · rw [hfold]
      simp only [App.record_result, hmax]

/-- C4. History eviction: with capacity `k ≥ 1`, after recording `k + j`
results (`j > 0`) into an empty store, exactly `k` entries remain,
`result_base_seq = j`, and the retained entries are the most recent `k`
results in recording order; moreover the entry at ring position `i` is
the result with stable global index `base + i` — the `(base + i)`-th
result ever recorded — so stable indices are strictly increasing with `i`
and are never reassigned to a different result. -/
theorem history_eviction (k j : Nat) (rs : List PingResult)
    (hk : 1 ≤ k) (hj : 0 < j) (hlen : rs.length = k + j) :
    (recordAll k rs).results.length = k ∧
    (recordAll k rs).result_base_seq = j ∧
    (recordAll k rs).results = rs.drop j ∧
    (∀ i : Nat, (recordAll k rs).results[i]? =
      rs[(recordAll k rs).result_base_seq + i]?) := by
  obtain ⟨hres, hbase, hmax⟩ := recordAll_char k rs
  have hjk : rs.length - k = j := by omega
  refine ⟨?_, ?_, ?_, ?_⟩
  · rw [hres, List.length_drop]; omega
  · rw [hbase, hjk]
  · rw [hres, hjk]
  · intro i
    rw [hres, hbase, hjk, List.getElem?_drop]

/-- C4 witness: capacity 2, three recorded results — the store keeps the
last two, the base sequence is 1, and ring position `i` addresses the
`(1 + i)`-th result. -/
theorem history_eviction_witness :
    (recordAll 2 [PingResult.timeout 1 0 0, PingResult.timeout 2 0 0,
       PingResult.timeout 3 0 0]).results.length = 2 ∧
    (recordAll 2 [PingResult.timeout 1 0 0, PingResult.timeout 2 0 0,
       PingResult.timeout 3 0 0]).result_base_seq = 1 := by
  have h := history_eviction 2 1
    [PingResult.timeout 1 0 0, PingResult.timeout 2 0 0, PingResult.timeout 3 0 0]
    (by decide) (by decide) (by decide)
  exact ⟨h.1, h.2.1⟩

/-- C6. Row geometry: over every store reachable from an empty history
with capacity `k ≥ 1` (configuration validation guarantees
`max_history ≥ 1`), `total_rows width` equals the ceiling division
`(baseSequence + len) ⌈/⌉ width`, and is zero whenever the width is zero
or the store is empty. -/
theorem total_rows_spec (k : Nat) (rs : List PingResult) (w : Nat) (hk : 1 ≤ k) :
    (recordAll k rs).total_rows w =
      ((recordAll k rs).result_base_seq + (recordAll k rs).results.length) ⌈/⌉ w ∧
    ((w = 0 ∨ (recordAll k rs).results = []) → (recordAll k rs).total_rows w = 0) := by
  obtain ⟨hres, hbase, hmax⟩ := recordAll_char k rs
  constructor
  · by_cases hw : w = 0
    · subst hw
      rw [App.total_rows, if_pos (Or.inl rfl), Nat.ceilDiv_eq_add_pred_div,
        Nat.div_zero]
    · by_cases hres0 : (recordAll k rs).results.isEmpty
      · have hempty : (recordAll k rs).results = [] := by
          rwa [List.isEmpty_iff] at hres0
        have hn : rs.length = 0 := by
          rw [hres] at hempty
          have hlen0 := congrArg List.length hempty
          simp only [List.length_drop, List.length_nil] at hlen0
          omega
        have hb0 : (recordAll k rs).result_base_seq = 0 := by rw [hbase, hn]; omega
        rw [App.total_rows, if_pos (Or.inr hres0), hb0, hempty]
        simp only [List.length_nil, Nat.add_zero]
        rw [Nat.ceilDiv_eq_add_pred_div, Nat.zero_add]
        exact (Nat.div_eq_of_lt (by omega)).symm
      · rw [App.total_rows, if_neg (by simp [hw, hres0])]
        exact div_ceil_eq_ceilDiv _ _ (Nat.pos_of_ne_zero hw)
  · intro h
    rw [App.total_rows, if_pos ?_]
    rcases h with h | h
    · exact Or.inl h
    · exact Or.inr (by rw [List.isEmpty_iff]; exact h)

/-- C6 witness: capacity 1, one recorded result, width 3 — `total_rows`
equals the ceiling division of the stable extent by the width. -/
theorem total_rows_spec_witness :
    (recordAll 1 [PingResult.timeout 1 0 0]).total_rows 3 =
      ((recordAll 1 [PingResult.timeout 1 0 0]).result_base_seq +
        (recordAll 1 [PingResult.timeout 1 0 0]).results.length) ⌈/⌉ 3 :=
  (total_rows_spec 1 [PingResult.timeout 1 0 0] 3 (by decide)).1

/-! ### Viewport addressing (src/ui/graph.rs, lines 67-108) -/

/-- Embedding of `Graph::result_at_position`: maps a screen cell, under a
given width, height and view-end row, to the ring position of the result
shown there, or `none` for an empty cell. -/
def result_at_position (results_len result_base_seq width height view_end_row
    screen_row screen_col : Nat) : Option Nat :=
  if results_len = 0 ∨ width = 0 ∨ height = 0 then none
  else
    let total_results := result_base_seq + results_len
    let total_rows := div_ceil total_results width
    let actual_end := min view_end_row total_rows
    let visible_rows := min actual_end height
    let view_start_row := actual_end - visible_rows
    let empty_rows_at_top := height - visible_rows
    if screen_row < empty_rows_at_top then none
    else
      let data_row := view_start_row + (screen_row - empty_rows_at_top)
      if actual_end ≤ data_row then none
      else
        let seq_idx := data_row * width + screen_col
        if result_base_seq ≤ seq_idx ∧ seq_idx < total_results then
          some (seq_idx - result_base_seq)
        else none

/-- C5. Addressing stability: for any stable index `s` and positive width
`w`, under any viewport that makes data row `s / w` visible, the cell at
that data row and column `s % w` addresses exactly the ring position
`s - baseSequence` when `s` is retained (`base ≤ s < base + len`), and no
data when `s` has been evicted or not yet produced — independently of how
many evictions (`base`) have occurred. -/
theorem result_at_position_stable
    (len base w h v s : Nat) (hw : 0 < w)
    (actual_end visible_rows view_start_row empty_rows_at_top : Nat)
    (hae : actual_end = min v (div_ceil (base + len) w))
    (hvr : visible_rows = min actual_end h)
    (hvs : view_start_row = actual_end - visible_rows)
    (het : empty_rows_at_top = h - visible_rows)
    (hvis1 : view_start_row ≤ s / w)
    (hvis2 : s / w < actual_end) :
    result_at_position len base w h v
      (empty_rows_at_top + (s / w - view_start_row)) (s % w) =
      if base ≤ s ∧ s < base + len then some (s - base) else none := by
  by_cases hlen : len = 0
  · subst hlen
    rw [result_at_position, if_pos (Or.inl rfl), if_neg (by omega)]
  · have hh : 0 < h := by
      rcases Nat.eq_zero_or_pos h with h0 | h0
      · exfalso; omega
      · exact h0
    rw [result_at_position, if_neg (by omega)]
    simp only
    rw [← hae, ← hvr, ← hvs, ← het]
    rw [if_neg (show ¬ empty_rows_at_top + (s / w - view_start_row) <
      empty_rows_at_top by omega)]
    have hdr : view_start_row +
        (empty_rows_at_top + (s / w - view_start_row) - empty_rows_at_top) =
        s / w := by omega
    rw [hdr]
    rw [if_neg (show ¬ actual_end ≤ s / w by omega)]
    rw [Nat.div_add_mod' s w]

/-- C5 witness: a store of 2 results with one eviction (`base = 1`),
width 2, height 5, live viewport: the cell of stable index 1 (data row 0,
column 1, screen row 3) addresses ring position 0. -/
theorem result_at_position_stable_witness :
    result_at_position 2 1 2 5 10 (3 + (1 / 2 - 0)) (1 % 2) =
      (if 1 ≤ 1 ∧ 1 < 1 + 2 then some (1 - 1) else none) :=
  result_at_position_stable 2 1 2 5 10 1 (by decide) 2 2 0 3
    (by decide) (by decide) (by decide) (by decide) (by decide) (by decide)

/-! ### UDP echo server (src/ping/udp.rs, lines 186-193) -/

/-- Embedding of `UdpServer::handle_packet`: returns the datagram sent
back (payload and destination address) or `none` when no response is
sent. `buf` is the received datagram, `len` its length, `src` the
sender's address (modelled as an opaque `Nat`). -/
def handle_packet (buf : List Nat) (len : Nat) (src : Nat) :
    Option (List Nat × Nat) :=
  if 20 ≤ len ∧ buf.take 4 = MAGIC then some (buf.take len, src) else none

/-- C9. Server behaviour: every received datagram of at least 20 bytes
whose first 4 bytes are the magic is echoed back verbatim to the sender's
address; every other datagram produces no response. -/
theorem server_echo (buf : List Nat) (src : Nat) :
    (20 ≤ buf.length → buf.take 4 = MAGIC →
      handle_packet buf buf.length src = some (buf, src)) ∧
    (buf.length < 20 ∨ buf.take 4 ≠ MAGIC →
      handle_packet buf buf.length src = none) := by
  constructor
  · intro h1 h2
    rw [handle_packet, if_pos ⟨h1, h2⟩, List.take_length]
  · intro h
    rw [handle_packet, if_neg ?_]
    rintro ⟨ha, hb⟩
    rcases h with h | h
    · omega
    · exact h hb

/-- C9 witness: a valid 20-byte probe packet is echoed unchanged; a
3-byte datagram gets no response. -/
theorem server_echo_witness :
    handle_packet (encode_packet 1 2) (encode_packet 1 2).length 0 =
      some (encode_packet 1 2, 0) ∧
    handle_packet [1, 2, 3] [1, 2, 3].length 0 = none :=
  ⟨(server_echo (encode_packet 1 2) 0).1 (by decide) (by decide),
   (server_echo [1, 2, 3] 0).2 (Or.inl (by decide))⟩

/-! ### UDP client pending table (src/ping/udp.rs, lines 79-170)

The three loops of `UdpClientPinger::start` share one pending table
(`HashMap<u64, Instant>` behind a mutex, accessed one operation at a
time) and emit results on a channel. Their interleaved execution is
modelled as a sequence of atomic events folded over an explicit state:
the sender inserts a fresh sequence number (lines 162-165), the receiver
removes the matching entry and emits a success — or drops the reply when
no entry exists (lines 98-110) — and the timeout sweep collects every
entry older than the timeout, removes it, and emits a timeout for it
(lines 132-151). -/

/-- Pending table plus the stream of emitted results: each result is a
sequence number with `some rtt` (success) or `none` (timeout). -/
structure UdpState where
  pending : List (Nat × Nat)
  results : List (Nat × Option Nat)
deriving DecidableEq, Repr

/-- One atomic action of the sender, receiver, or timeout-sweep loop. -/
inductive UdpEvent where
  | send (seq sent_at : Nat)
  | recv (seq now : Nat)
  | sweep (now : Nat)
deriving DecidableEq, Repr

/-- Transition of the shared state for one event, with configured timeout
`T`. `HashMap::insert` replaces any entry with the same key;
`HashMap::remove` returns the entry when present and drives the
receiver's `if let`; `Instant` subtraction saturates at zero. -/
def udpStep (T : Nat) (s : UdpState) : UdpEvent → UdpState
  | UdpEvent.send seq sent_at =>
      { pending := s.pending.filter (fun p => p.1 != seq) ++ [(seq, sent_at)],
        results := s.results }
  | UdpEvent.recv seq now =>
      match s.pending.find? (fun p => p.1 == seq) with
      | some p =>
          { pending := s.pending.filter (fun q => q.1 != seq),
            results := s.results ++ [(seq, some (now - p.2))] }
      | none => s
  | UdpEvent.sweep now =>
      { pending := s.pending.filter (fun p => !decide (T < now - p.2)),
        results := s.results ++
          (s.pending.filter (fun p => decide (T < now - p.2))).map
            (fun p => (p.1, none)) }

/-- Number of pending entries carrying sequence number `q`. -/
def keyCount (ps : List (Nat × Nat)) (q : Nat) : Nat :=
  ps.countP (fun p => p.1 == q)

/-- Number of emitted results carrying sequence number `q`. -/
def reportCount (rs : List (Nat × Option Nat)) (q : Nat) : Nat :=
  rs.countP (fun r => r.1 == q)

/-- Number of send events for sequence number `q` in an event trace. -/
def sendCount (events : List UdpEvent) (q : Nat) : Nat :=
  events.countP (fun e => match e with
    | UdpEvent.send seq _ => seq == q
    | _ => false)

/-- State after an event trace starting from the empty session state. -/
def udpRun (T : Nat) (events : List UdpEvent) : UdpState :=
  events.foldl (udpStep T) { pending := [], results := [] }

theorem countP_and_not (l : List α) (p c : α → Bool) :
    l.countP (fun a => p a && c a) + l.countP (fun a => p a && !c a) =
      l.countP p := by
  induction l with
  | nil => rfl
  | cons a l ih =>
    cases hp : p a <;> cases hc : c a <;>
      simp [List.countP_cons, hp, hc] <;> omega

theorem keyCount_split (ps : List (Nat × Nat)) (c : Nat × Nat → Bool) (q : Nat) :
    keyCount (ps.filter c) q + keyCount (ps.filter (fun p => !c p)) q =
      keyCount ps q := by
  simp only [keyCount, List.countP_filter]
  exact countP_and_not ps (fun p => p.1 == q) c

theorem keyCount_filter_ne (ps : List (Nat × Nat)) (q : Nat) :
    keyCount (ps.filter (fun p => p.1 != q)) q = 0 := by
  simp only [keyCount, List.countP_filter]
  rw [List.countP_eq_zero]
  intro p _
  cases h : (p.1 == q) <;> simp [h, bne]

theorem keyCount_filter_ne_other (ps : List (Nat × Nat)) (q q' : Nat)
    (h : q ≠ q') :
    keyCount (ps.filter (fun p => p.1 != q')) q = keyCount ps q := by
  simp only [keyCount, List.countP_filter]
  refine List.countP_congr fun p _ => ?_
  by_cases hp : p.1 = q
  · subst hp
    simp [bne, h]
  · simp [hp]

theorem keyCount_le_one_of_nodup (ps : List (Nat × Nat)) (q : Nat)
    (h : (ps.map Prod.fst).Nodup) : keyCount ps q ≤ 1 := by
  have hmap : keyCount ps q = (ps.map Prod.fst).count q := by
    rw [List.count, List.countP_map]
    rfl
  rw [hmap]
  exact List.nodup_iff_count_le_one.mp h q

/-- One step never creates more reports-plus-pending entries for a
sequence number than the sends for it allow. -/
theorem udpStep_count (T : Nat) (s : UdpState) (e : UdpEvent) (q : Nat) :
    reportCount (udpStep T s e).results q + keyCount (udpStep T s e).pending q ≤
      reportCount s.results q + keyCount s.pending q + sendCount [e] q := by
  cases e with
  | send seq t =>
    have hsend : sendCount [UdpEvent.send seq t] q =
        if seq == q then 1 else 0 := by
      simp [sendCount, List.countP_cons]
    simp only [udpStep, hsend, keyCount, List.countP_append]
    by_cases hq : seq = q
    · subst hq
      have h0 := keyCount_filter_ne s.pending seq
      simp only [keyCount] at h0
      simp [h0, List.countP_cons]
    · have h0 := keyCount_filter_ne_other s.pending q seq fun h => hq h.symm
      simp only [keyCount] at h0
      have hne : ((seq, t).1 == q) = false := by simp [hq]
      simp [h0, List.countP_cons, hne, hq]
  | recv seq now =>
    cases hfind : s.pending.find? (fun p => p.1 == seq) with
    | none => simp [udpStep, hfind, sendCount, List.countP_cons]
    | some p =>
      have hkey := List.find?_some hfind
      have hmem : p ∈ s.pending := List.mem_of_find?_eq_some hfind
      simp only [udpStep, hfind, sendCount, List.countP_cons, List.countP_nil]
      by_cases hq : seq = q
      · subst hq
        have h0 := keyCount_filter_ne s.pending seq
        have h1 : 0 < keyCount s.pending seq := by
          rw [keyCount, List.countP_pos_iff]
          exact ⟨p, hmem, hkey⟩
        simp only [reportCount, keyCount, List.countP_append,
          List.countP_cons, List.countP_nil] at *
        simp [h0]
        have hp1 : p.1 = seq := by simpa using hkey
        exact ⟨p.2, by rw [← hp1]; exact hmem⟩
      · have h0 := keyCount_filter_ne_other s.pending q seq fun h => hq h.symm
        simp only [reportCount, keyCount, List.countP_append,
          List.countP_cons, List.countP_nil] at *
        have hne : ((seq, some (now - p.2)).1 == q) = false := by simp [hq]
        simp [h0, hne]
  | sweep now =>
    have hsplit := keyCount_split s.pending (fun p => decide (T < now - p.2)) q
    have hmapcount : reportCount
        ((s.pending.filter (fun p => decide (T < now - p.2))).map
          (fun p => (p.1, none))) q =
        keyCount (s.pending.filter (fun p => decide (T < now - p.2))) q := by
      rw [reportCount, List.countP_map, keyCount]
      rfl
    simp only [udpStep, reportCount, keyCount, List.countP_append,
      sendCount, List.countP_cons, List.countP_nil] at *
    omega

/-- Folding a trace from any state: reports plus pending entries for a
sequence number grow by at most the number of its sends in the trace. -/
theorem udpRun_count_le (T : Nat) (events : List UdpEvent) (q : Nat) :
    ∀ s : UdpState,
      reportCount ((events.foldl (udpStep T) s).results) q +
        keyCount ((events.foldl (udpStep T) s).pending) q ≤
        reportCount s.results q + keyCount s.pending q + sendCount events q := by
  induction events with
  | nil => intro s; simp [sendCount]
  | cons e es ih =>
    intro s
    have h1 := udpStep_count T s e q
    have h2 := ih (udpStep T s e)
    have hsend : sendCount (e :: es) q = sendCount [e] q + sendCount es q := by
      simp [sendCount, List.countP_cons]
      omega
    rw [List.foldl_cons]
    omega

/-- C8. Timeout sweep and exactly-once reporting. First: a pending
request `(seq, t)` whose age exceeds the timeout (`now - t > T`, i.e. no
matching reply arrived by `t + T`) is removed from the pending table by
the sweep and reported as a timeout exactly once, and a reply for `seq`
arriving right after the sweep finds no pending entry and changes
nothing. Second: a reply whose sequence number has no pending entry
(already resolved or timed out) is dropped, producing no result and no
state change. Third: over any trace in which each sequence number is sent
at most once, no sequence number is ever reported twice. -/
theorem pending_timeout_spec (T : Nat) :
    (∀ (s : UdpState) (seq t now : Nat),
      (s.pending.map Prod.fst).Nodup → (seq, t) ∈ s.pending → T < now - t →
        keyCount (udpStep T s (UdpEvent.sweep now)).pending seq = 0 ∧
        reportCount (udpStep T s (UdpEvent.sweep now)).results seq =
          reportCount s.results seq + 1 ∧
        udpStep T (udpStep T s (UdpEvent.sweep now)) (UdpEvent.recv seq now) =
          udpStep T s (UdpEvent.sweep now)) ∧
    (∀ (s : UdpState) (seq now : Nat),
      s.pending.find? (fun p => p.1 == seq) = none →
        udpStep T s (UdpEvent.recv seq now) = s) ∧
    (∀ (events : List UdpEvent) (q : Nat),
      sendCount events q ≤ 1 →
        reportCount (udpRun T events).results q ≤ 1) := by
  have hdrop : ∀ (s : UdpState) (seq now : Nat),
      s.pending.find? (fun p => p.1 == seq) = none →
        udpStep T s (UdpEvent.recv seq now) = s := by
    intro s seq now hfind
    simp [udpStep, hfind]
  refine ⟨?_, hdrop, ?_⟩
  · intro s seq t now hnodup hmem hage
    have hone : keyCount s.pending seq ≤ 1 := keyCount_le_one_of_nodup _ _ hnodup
    have hsplit := keyCount_split s.pending (fun p => decide (T < now - p.2)) seq
    have hin : 0 < keyCount (s.pending.filter
        (fun p => decide (T < now - p.2))) seq := by
      rw [keyCount, List.countP_pos_iff]
      exact ⟨(seq, t), List.mem_filter.mpr ⟨hmem, by simpa using hage⟩, by simp⟩
    have hzero : keyCount (udpStep T s (UdpEvent.sweep now)).pending seq = 0 := by
      simp only [udpStep]
      omega
    refine ⟨hzero, ?_, ?_⟩
    · have hmapcount : reportCount
          ((s.pending.filter (fun p => decide (T < now - p.2))).map
            (fun p => (p.1, none))) seq =
          keyCount (s.pending.filter (fun p => decide (T < now - p.2))) seq := by
        rw [reportCount, List.countP_map, keyCount]
        rfl
      simp only [udpStep, reportCount, List.countP_append] at *
      omega
    · refine hdrop _ seq now ?_
      rw [List.find?_eq_none]
      intro p hp
      have := List.countP_eq_zero.mp hzero p hp
      simpa using this
  · intro events q hsends
    have h := udpRun_count_le T events q { pending := [], results := [] }
    rw [udpRun]
    simp only [reportCount, keyCount, List.countP_nil] at *
    omega

/-- C8 witness: with timeout 3, a table holding the single request
`(seq 5, sent at 10)` swept at instant 20 evicts it and reports it as a
timeout exactly once, and a reply for 5 arriving after the sweep is
dropped without effect. -/
theorem pending_timeout_spec_witness :
    keyCount (udpStep 3 { pending := [(5, 10)], results := [] }
      (UdpEvent.sweep 20)).pending 5 = 0 ∧
    reportCount (udpStep 3 { pending := [(5, 10)], results := [] }
      (UdpEvent.sweep 20)).results 5 =
      reportCount ({ pending := [(5, 10)], results := [] } : UdpState).results 5
        + 1 := by
  have h := (pending_timeout_spec 3).1 { pending := [(5, 10)], results := [] }
    5 10 20 (by decide) (by decide) (by decide)
  exact ⟨h.1, h.2.1⟩

end Rttui
